import Mathlib

/-
Verification of the chat-room server core (src/server.js): connection
registry, nickname policy, broadcast dispatcher and session protocol
handler, embedded shallowly as pure Lean functions over explicit state.
-/

namespace ChatRoom

/-- Model of JavaScript String.prototype.toLowerCase: lower-case every character. -/
def jsToLower (s : String) : String := ⟨s.data.map Char.toLower⟩

/-- Model of JavaScript String.prototype.trim: drop whitespace from both ends. -/
def jsTrim (s : String) : String :=
  ⟨((s.data.dropWhile Char.isWhitespace).reverse.dropWhile Char.isWhitespace).reverse⟩

/-- A connection handle (the `ws` object), used only as a map key and send target. -/
abbrev Handle := Nat

/-- Per-connection metadata stored in the `clients` map, plus the transport's
readyState (`isOpen` models `readyState === WebSocket.OPEN`). -/
structure Client where
  id : Nat
  username : Option String
  isOpen : Bool
deriving DecidableEq, Repr

/-- Outbound JSON payloads of the server, one constructor per wire shape. -/
inductive Payload where
  | system (sender : Option String) (message : String) (nickname : Option String)
  | chat (sender : String) (message : String)
  | typingStart (sender : String)
  | typingStop (sender : String)
  | userListUpdate (users : List String)
deriving DecidableEq, Repr

/-- One attempted send: recipient handle and the payload handed to `send`. -/
structure Delivery where
  dest : Handle
  payload : Payload
deriving DecidableEq, Repr

/-- A dynamically-typed JSON field that the handler inspects with `typeof`. -/
inductive JsonStr where
  | str (s : String)
  | notStr
  | absent
deriving DecidableEq, Repr

/-- Decoded inbound messages (the `data.type` tagged union). -/
inductive InMsg where
  | setNickname (nickname : Option String)
  | chat (message : JsonStr)
  | typingStart
  | typingStop
  | unknown
deriving DecidableEq, Repr

/-- The registry: insertion-ordered association list modelling the `clients` Map. -/
abbrev Registry := List (Handle × Client)

/-- Model of `clients.get(ws)`. -/
def lookupClient (cs : Registry) (h : Handle) : Option Client :=
  (cs.find? fun hc => hc.1 == h).map Prod.snd

/-- Model of `isNicknameInUse` (src/server.js lines 27-37): scan every client,
truthiness test on `clientData.username`, case-insensitive comparison. -/
def isNicknameInUse (cs : Registry) (nickname : String) : Bool :=
  cs.any fun hc =>
    match hc.2.username with
    | some u => (u != "") && (jsToLower u == jsToLower nickname)
    | none => false

/-- Model of `broadcast` (src/server.js lines 44-56): for each connection,
skip the sender when provided, send only when the readyState is open. -/
def broadcast (cs : Registry) (payload : Payload) (senderWs : Option Handle) :
    List Delivery :=
  cs.filterMap fun hc =>
    if senderWs = some hc.1 then none
    else if hc.2.isOpen then some ⟨hc.1, payload⟩
    else none

/-- All usernames currently stored in the registry (nulls dropped). -/
def namesOf (cs : Registry) : List String :=
  cs.filterMap fun hc => hc.2.username

/-- Lexicographic comparison of character lists, the order used by the default
JavaScript Array.prototype.sort comparator on strings. -/
def listLeb : List Char → List Char → Bool
  | [], _ => true
  | _ :: _, [] => false
  | a :: as, b :: bs => if a < b then true else if b < a then false else listLeb as bs

/-- Model of the default JavaScript string comparison: code-unit lexicographic. -/
def strLe (a b : String) : Prop := listLeb a.data b.data = true

instance : DecidableRel strLe := fun a b => by unfold strLe; infer_instance

/-- Model of the user-list computation in `broadcastUserList` (lines 61-71):
map to usernames, filter truthy, sort alphabetically. -/
def userList (cs : Registry) : List String :=
  List.insertionSort strLe ((namesOf cs).filter fun u => u != "")

/-- Model of `broadcastUserList` (lines 61-71). -/
def broadcastUserList (cs : Registry) : List Delivery :=
  broadcast cs (.userListUpdate (userList cs)) none

/-- Error text sent when the trimmed nickname length is outside [2, 15]. -/
def lengthErrText : String := "错误: 昵称长度必须在2-15个字符之间。"

/-- Error text sent when the nickname is already in use. -/
def takenErrText (n : String) : String :=
  "错误: 昵称 \"" ++ n ++ "\" 已被占用，请换一个。"

/-- Confirmation text sent to the requester on nickname success. -/
def welcomeText (n : String) : String := "欢迎 " ++ n ++ " 来到聊天室！"

/-- System text broadcast when a named session changes its name. -/
def renameText (old n : String) : String := old ++ " 更名为 " ++ n

/-- System text broadcast when an anonymous session takes its first name. -/
def joinText (n : String) : String := n ++ " 加入了聊天室。"

/-- System text broadcast when a named session disconnects. -/
def departText (n : String) : String := n ++ " 离开了聊天室。"

/-- The two nickname validation failures of the SET_NICKNAME case. -/
inductive NicknameError where
  | invalidLength
  | nameTaken
deriving DecidableEq, Repr

/-- The nickname validation of the SET_NICKNAME case (lines 92-117), extracted
as a function of the requested field and the registry: trim (absent field gives
the empty string), reject lengths outside [2, 15], reject names in use,
otherwise return the trimmed canonical form. -/
def validateNickname (cs : Registry) (nickField : Option String) :
    Except NicknameError String :=
  let newNickname := match nickField with | some s => jsTrim s | none => ""
  if newNickname = "" ∨ newNickname.length < 2 ∨ newNickname.length > 15 then
    .error .invalidLength
  else if isNicknameInUse cs newNickname then
    .error .nameTaken
  else
    .ok newNickname

/-- Model of `senderInfo.username = newNickname`: in-place mutation of the
session object held in the map under key `h`. -/
def setUsername (cs : Registry) (h : Handle) (n : String) : Registry :=
  cs.map fun hc => if hc.1 = h then (hc.1, { hc.2 with username := some n }) else hc

/-- The join-or-rename wording (lines 136-138): truthiness test on the old name. -/
def joinOrRenameText (oldUsername : Option String) (n : String) : String :=
  match oldUsername with
  | some old => if old = "" then joinText n else renameText old n
  | none => joinText n

/-- Result of one handler invocation: the registry afterwards and the sends
it performed, in order. -/
structure HandleResult where
  state : Registry
  sends : List Delivery
deriving DecidableEq, Repr

/-- The SET_NICKNAME case (lines 91-141): validate; on failure unicast the
specific error to the requester and stop; on success write the name, unicast
the confirmation, broadcast join-or-rename excluding the requester, then
broadcast the refreshed user list to everyone. -/
def handleSetNickname (cs : Registry) (senderInfo : Client) (h : Handle)
    (nickField : Option String) : HandleResult :=
  let oldUsername := senderInfo.username
  let newNickname := match nickField with | some s => jsTrim s | none => ""
  if newNickname = "" ∨ newNickname.length < 2 ∨ newNickname.length > 15 then
    ⟨cs, [⟨h, .system none lengthErrText none⟩]⟩
  else if isNicknameInUse cs newNickname then
    ⟨cs, [⟨h, .system none (takenErrText newNickname) none⟩]⟩
  else
    let cs' := setUsername cs h newNickname
    ⟨cs',
      ⟨h, .system (some "系统") (welcomeText newNickname) (some newNickname)⟩ ::
        (broadcast cs' (.system none (joinOrRenameText oldUsername newNickname) none)
            (some h) ++
          broadcastUserList cs')⟩

/-- The CHAT case (lines 143-158): require a truthy username, a string body
that is nonempty after trimming, then broadcast excluding the sender. -/
def handleChat (cs : Registry) (senderInfo : Client) (h : Handle)
    (messageField : JsonStr) : HandleResult :=
  match senderInfo.username, messageField with
  | some u, .str m =>
    if u = "" then ⟨cs, []⟩
    else if jsTrim m = "" then ⟨cs, []⟩
    else ⟨cs, broadcast cs (.chat u (jsTrim m)) (some h)⟩
  | _, _ => ⟨cs, []⟩

/-- The TYPING_START / TYPING_STOP cases (lines 160-171). -/
def handleTyping (cs : Registry) (senderInfo : Client) (h : Handle)
    (mk : String → Payload) : HandleResult :=
  match senderInfo.username with
  | some u => if u = "" then ⟨cs, []⟩ else ⟨cs, broadcast cs (mk u) (some h)⟩
  | none => ⟨cs, []⟩

/-- The message handler (lines 83-183): look up the sender and dispatch on the
message type; an unregistered sender or an unknown type produces no effect. -/
def handleMessage (cs : Registry) (h : Handle) (msg : InMsg) : HandleResult :=
  match lookupClient cs h with
  | none => ⟨cs, []⟩
  | some senderInfo =>
    match msg with
    | .setNickname nickField => handleSetNickname cs senderInfo h nickField
    | .chat messageField => handleChat cs senderInfo h messageField
    | .typingStart => handleTyping cs senderInfo h Payload.typingStart
    | .typingStop => handleTyping cs senderInfo h Payload.typingStop
    | .unknown => ⟨cs, []⟩

/-- The connection handler prologue (lines 74-81): store a fresh session with
a fresh id and a null username; nothing is sent. -/
def handleConnect (cs : Registry) (h : Handle) (freshId : Nat) : HandleResult :=
  ⟨cs ++ [(h, ⟨freshId, none, true⟩)], []⟩

/-- The close handler (lines 186-205): remove the entry; if the removed
session had a truthy username, broadcast the departure and the refreshed
user list, otherwise send nothing. -/
def handleClose (cs : Registry) (h : Handle) : HandleResult :=
  let userInfo := lookupClient cs h
  let cs' := cs.filter fun hc => hc.1 != h
  match userInfo with
  | some c =>
    match c.username with
    | some u =>
      if u = "" then ⟨cs', []⟩
      else
        ⟨cs',
          broadcast cs' (.system (some "系统") (departText u) none) none ++
            broadcastUserList cs'⟩
    | none => ⟨cs', []⟩
  | none => ⟨cs', []⟩

/-- Whole-process state: the registry plus the source of fresh session ids
(modelling uuidv4 as a counter). -/
structure ServerState where
  clients : Registry
  nextId : Nat
deriving DecidableEq, Repr

/-- Transport-driven events, each running one handler callback to completion. -/
inductive Event where
  | connect (h : Handle)
  | message (h : Handle) (msg : InMsg)
  | close (h : Handle)
deriving DecidableEq, Repr

/-- The process starts with an empty registry. -/
def initialState : ServerState := ⟨[], 0⟩

/-- One transport callback: the new state and the sends it performed. -/
def step (s : ServerState) : Event → ServerState × List Delivery
  | .connect h =>
    let r := handleConnect s.clients h s.nextId
    (⟨r.state, s.nextId + 1⟩, r.sends)
  | .message h m =>
    let r := handleMessage s.clients h m
    (⟨r.state, s.nextId⟩, r.sends)
  | .close h =>
    let r := handleClose s.clients h
    (⟨r.state, s.nextId⟩, r.sends)

/-- States reachable from process start by event sequences; the transport
guarantees each connect event carries a handle not currently registered. -/
inductive Reachable : ServerState → Prop where
  | init : Reachable initialState
  | connect (s : ServerState) (h : Handle) : Reachable s →
      lookupClient s.clients h = none → Reachable (step s (.connect h)).1
  | message (s : ServerState) (h : Handle) (m : InMsg) : Reachable s →
      Reachable (step s (.message h m)).1
  | close (s : ServerState) (h : Handle) : Reachable s →
      Reachable (step s (.close h)).1

/-- The handles a broadcast actually targets: every registered connection that
is open and not the excluded sender, in registry order. -/
def openHandlesExcept (cs : Registry) (x : Option Handle) : List Handle :=
  (cs.filter fun hc => decide (x ≠ some hc.1) && hc.2.isOpen).map Prod.fst

/-- Per-recipient send outcomes: each attempted delivery paired with the
success of its own `send`, as reported by the transport oracle. -/
def deliverAll (ds : List Delivery) (sendOk : Handle → Bool) :
    List (Delivery × Bool) :=
  ds.map fun d => (d, sendOk d.dest)

/-- The registry invariant: distinct handles, case-insensitively distinct
usernames, every username of valid length, every entry open, every stored
session id below the fresh-id counter. -/
def Invariant (s : ServerState) : Prop :=
  (s.clients.map Prod.fst).Nodup ∧
  (namesOf s.clients).Pairwise (fun u v => jsToLower u ≠ jsToLower v) ∧
  (∀ u ∈ namesOf s.clients, 2 ≤ u.length ∧ u.length ≤ 15) ∧
  (∀ hc ∈ s.clients, hc.2.isOpen = true) ∧
  (∀ hc ∈ s.clients, hc.2.id < s.nextId)

/-- The error text of each validation failure, as sent to the requester. -/
def errText : NicknameError → String → String
  | .invalidLength, _ => lengthErrText
  | .nameTaken, n => takenErrText n

/-- What the spec says the CHAT case sends, from the sender's session and the
message field: nothing for an anonymous sender or a non-string or trim-empty
body, the trimmed chat event to every other open connection otherwise. -/
def chatSendsSpec (cs : Registry) (h : Handle) (c : Client) (mf : JsonStr) :
    List Delivery :=
  match c.username, mf with
  | some u, .str m =>
    if jsTrim m = "" then []
    else (openHandlesExcept cs (some h)).map fun k => ⟨k, Payload.chat u (jsTrim m)⟩
  | _, _ => []

/-- What the spec says the close handler sends: for a named session, the
departure message then the refreshed user list, each to every remaining open
connection; nothing for an anonymous or unregistered one. -/
def closeSendsSpec (cs : Registry) (h : Handle) : List Delivery :=
  match lookupClient cs h with
  | some c =>
    match c.username with
    | some u =>
      ((openHandlesExcept (cs.filter fun hc => hc.1 != h) none).map fun k =>
          ⟨k, Payload.system (some "系统") (departText u) none⟩) ++
        ((openHandlesExcept (cs.filter fun hc => hc.1 != h) none).map fun k =>
          ⟨k, Payload.userListUpdate (userList (cs.filter fun hc => hc.1 != h))⟩)
    | none => []
  | none => []

/-- A one-client registry with the display name Bob, for concrete checks. -/
def demoClients : Registry := [(0, ⟨0, some "Bob", true⟩)]

/-- A two-client registry with the display names Alice and Bob. -/
def demoClients2 : Registry :=
  [(0, ⟨0, some "Alice", true⟩), (1, ⟨1, some "Bob", true⟩)]

/-- A concrete run: two clients connect and take the names Alice and Bob. -/
def demoState : ServerState :=
  (step (step (step (step initialState (.connect 0)).1
          (.message 0 (.setNickname (some "Alice")))).1
        (.connect 1)).1
      (.message 1 (.setNickname (some "Bob")))).1

theorem strLe_isTotal : IsTotal String strLe := by
  constructor
  intro a b
  show listLeb a.data b.data = true ∨ listLeb b.data a.data = true
  generalize a.data = as
  generalize b.data = bs
  induction as generalizing bs with
  | nil => left; rfl
  | cons x xs ih =>
    cases bs with
    | nil => right; rfl
    | cons y ys =>
      by_cases hxy : x < y
      · left; simp [listLeb, hxy]
      · by_cases hyx : y < x
        · right; simp [listLeb, hyx]
        · rcases ih ys with h' | h' <;> [left; right] <;>
            simp [listLeb, hxy, hyx, h']

theorem listLeb_trans {as bs cs : List Char} (h₁ : listLeb as bs = true)
    (h₂ : listLeb bs cs = true) : listLeb as cs = true := by
  induction as generalizing bs cs with
  | nil => rfl
  | cons x xs ih =>
    cases bs with
    | nil => simp [listLeb] at h₁
    | cons y ys =>
      cases cs with
      | nil => simp [listLeb] at h₂
      | cons z zs =>
        by_cases hxy : x < y
        · by_cases hyz : y < z
          · simp [listLeb, lt_trans hxy hyz]
          · by_cases hzy : z < y
            · simp [listLeb, hyz, hzy] at h₂
            · have hyz' : y = z := le_antisymm (not_lt.mp hzy) (not_lt.mp hyz)
              simp [listLeb, hyz' ▸ hxy]
        · by_cases hyx : y < x
          · simp [listLeb, hxy, hyx] at h₁
          · have hxy' : x = y := le_antisymm (not_lt.mp hyx) (not_lt.mp hxy)
            subst hxy'
            simp only [listLeb, if_neg hxy, if_neg hyx] at h₁
            by_cases hyz : x < z
            · simp [listLeb, hyz]
            · by_cases hzy : z < x
              · simp [listLeb, hyz, hzy] at h₂
              · simp only [listLeb, if_neg hyz, if_neg hzy] at h₂ ⊢
                exact ih h₁ h₂

theorem strLe_isTrans : IsTrans String strLe := ⟨fun _ _ _ => listLeb_trans⟩

theorem jsToLower_length (s : String) : (jsToLower s).length = s.length := by
  show (s.data.map Char.toLower).length = s.data.length
  simp

theorem ne_empty_of_two_le {u : String} (h : 2 ≤ u.length) : u ≠ "" := by
  intro he
  subst he
  simp [String.length] at h

theorem lookupClient_eq_none {cs : Registry} {h : Handle} :
    lookupClient cs h = none ↔ h ∉ cs.map Prod.fst := by
  simp only [lookupClient, Option.map_eq_none', List.find?_eq_none, List.mem_map,
    beq_iff_eq]
  aesop

theorem lookupClient_mem {cs : Registry} {h : Handle} {c : Client}
    (hc : lookupClient cs h = some c) : (h, c) ∈ cs := by
  simp only [lookupClient, Option.map_eq_some'] at hc
  obtain ⟨hc₀, hfind, hsnd⟩ := hc
  have hmem := List.mem_of_find?_eq_some hfind
  have hfst : hc₀.1 = h := by
    have := List.find?_some hfind
    simpa [beq_iff_eq] using this
  have : (h, c) = hc₀ := by
    cases hc₀
    simp_all
  rw [this]
  exact hmem

theorem broadcast_eq_map (cs : Registry) (p : Payload) (x : Option Handle) :
    broadcast cs p x = (openHandlesExcept cs x).map fun k => ⟨k, p⟩ := by
  induction cs with
  | nil => rfl
  | cons hc rest ih =>
    by_cases hx : x = some hc.1
    · have hx' : ¬ x ≠ some hc.1 := fun hne => hne hx
      simp [broadcast, openHandlesExcept, List.filterMap_cons, List.filter_cons, hx, hx'] at *
      exact ih
    · by_cases hop : hc.2.isOpen = true
      · simp [broadcast, openHandlesExcept, List.filterMap_cons, List.filter_cons, hx, hop] at *
        exact ih
      · simp only [Bool.not_eq_true] at hop
        simp [broadcast, openHandlesExcept, List.filterMap_cons, List.filter_cons, hx, hop] at *
        exact ih

theorem mem_openHandlesExcept {k : Handle} {cs : Registry} {x : Option Handle} :
    k ∈ openHandlesExcept cs x ↔ ∃ c, (k, c) ∈ cs ∧ c.isOpen = true ∧ x ≠ some k := by
  simp only [openHandlesExcept, List.mem_map, List.mem_filter, Bool.and_eq_true,
    decide_eq_true_eq]
  constructor
  · rintro ⟨⟨k', c⟩, ⟨hmem, hx, hop⟩, hfst⟩
    subst hfst
    exact ⟨c, hmem, hop, hx⟩
  · rintro ⟨c, hmem, hop, hx⟩
    exact ⟨(k, c), ⟨hmem, hx, hop⟩, rfl⟩

theorem setUsername_cons (k : Handle) (c : Client) (rest : Registry) (h : Handle)
    (n : String) :
    setUsername ((k, c) :: rest) h n =
      (if k = h then (k, { c with username := some n }) else (k, c)) ::
        setUsername rest h n := by
  simp only [setUsername, List.map_cons]

theorem setUsername_map_fst (cs : Registry) (h : Handle) (n : String) :
    (setUsername cs h n).map Prod.fst = cs.map Prod.fst := by
  induction cs with
  | nil => rfl
  | cons hc rest ih =>
    obtain ⟨k, c⟩ := hc
    rw [setUsername_cons]
    by_cases hk : k = h <;> simp [hk, ih]

theorem setUsername_of_not_mem (cs : Registry) (h : Handle) (n : String)
    (hh : h ∉ cs.map Prod.fst) : setUsername cs h n = cs := by
  induction cs with
  | nil => rfl
  | cons hc rest ih =>
    obtain ⟨k, c⟩ := hc
    simp only [List.map_cons, List.mem_cons, not_or] at hh
    rw [setUsername_cons, if_neg (fun he => hh.1 he.symm), ih hh.2]

theorem mem_setUsername {hc' : Handle × Client} {cs : Registry} {h : Handle}
    {n : String} (hmem : hc' ∈ setUsername cs h n) :
    ∃ c, (hc'.1, c) ∈ cs ∧ hc'.2.id = c.id ∧ hc'.2.isOpen = c.isOpen := by
  simp only [setUsername, List.mem_map] at hmem
  obtain ⟨hc₀, hmem₀, heq⟩ := hmem
  by_cases hk : hc₀.1 = h
  · rw [if_pos hk] at heq
    subst heq
    exact ⟨hc₀.2, hmem₀, rfl, rfl⟩
  · rw [if_neg hk] at heq
    subst heq
    exact ⟨hc₀.2, hmem₀, rfl, rfl⟩

theorem namesOf_cons_some {c : Client} {u : String} (k : Handle) (rest : Registry)
    (hu : c.username = some u) :
    namesOf ((k, c) :: rest) = u :: namesOf rest := by
  simp [namesOf, List.filterMap_cons, hu]

theorem namesOf_cons_none {c : Client} (k : Handle) (rest : Registry)
    (hu : c.username = none) :
    namesOf ((k, c) :: rest) = namesOf rest := by
  simp [namesOf, List.filterMap_cons, hu]

theorem mem_namesOf {v : String} {cs : Registry} :
    v ∈ namesOf cs ↔ ∃ hc ∈ cs, hc.2.username = some v := by
  simp [namesOf, List.mem_filterMap]

theorem mem_namesOf_tail {v : String} {k : Handle} {c : Client} {rest : Registry}
    (hv : v ∈ namesOf rest) : v ∈ namesOf ((k, c) :: rest) := by
  cases hu : c.username with
  | some u => rw [namesOf_cons_some k rest hu]; exact List.mem_cons_of_mem u hv
  | none => rw [namesOf_cons_none k rest hu]; exact hv

theorem pairwise_namesOf_tail {R : String → String → Prop} {k : Handle} {c : Client}
    {rest : Registry} (hpw : (namesOf ((k, c) :: rest)).Pairwise R) :
    (namesOf rest).Pairwise R := by
  cases hu : c.username with
  | some u => rw [namesOf_cons_some k rest hu] at hpw; exact hpw.of_cons
  | none => rw [namesOf_cons_none k rest hu] at hpw; exact hpw

theorem mem_namesOf_setUsername {v : String} {cs : Registry} {h : Handle} {n : String}
    (hv : v ∈ namesOf (setUsername cs h n)) : v = n ∨ v ∈ namesOf cs := by
  rw [mem_namesOf] at hv
  obtain ⟨hc', hmem, husr⟩ := hv
  simp only [setUsername, List.mem_map] at hmem
  obtain ⟨hc₀, hmem₀, heq⟩ := hmem
  by_cases hk : hc₀.1 = h
  · rw [if_pos hk] at heq
    left
    rw [← heq] at husr
    simpa using husr.symm
  · rw [if_neg hk] at heq
    right
    rw [mem_namesOf]
    exact ⟨hc₀, hmem₀, by rw [heq]; exact husr⟩

theorem isNicknameInUse_iff (cs : Registry) (n : String) :
    isNicknameInUse cs n = true ↔
      ∃ u ∈ namesOf cs, u ≠ "" ∧ jsToLower u = jsToLower n := by
  unfold isNicknameInUse
  rw [List.any_eq_true]
  constructor
  · rintro ⟨hc, hmem, hmatch⟩
    cases hu : hc.2.username with
    | none => rw [hu] at hmatch; simp at hmatch
    | some u =>
      rw [hu] at hmatch
      simp only [Bool.and_eq_true, bne_iff_ne, beq_iff_eq, ne_eq] at hmatch
      refine ⟨u, ?_, hmatch.1, hmatch.2⟩
      rw [mem_namesOf]
      exact ⟨hc, hmem, hu⟩
  · rintro ⟨u, hu, hne, heq⟩
    rw [mem_namesOf] at hu
    obtain ⟨hc, hmem, husr⟩ := hu
    refine ⟨hc, hmem, ?_⟩
    rw [husr]
    simp [hne, heq]

theorem isNicknameInUse_false_head {k : Handle} {c : Client} {rest : Registry}
    {n : String} (hfree : isNicknameInUse ((k, c) :: rest) n = false) :
    isNicknameInUse rest n = false ∧
      ∀ u, c.username = some u → u ≠ "" → jsToLower u ≠ jsToLower n := by
  unfold isNicknameInUse at hfree ⊢
  rw [List.any_cons, Bool.or_eq_false_iff] at hfree
  refine ⟨hfree.2, ?_⟩
  intro u hu hune heq
  have := hfree.1
  rw [hu] at this
  simp [hune, heq] at this

theorem pairwise_setUsername (cs : Registry) (h : Handle) (n : String)
    (hnd : (cs.map Prod.fst).Nodup)
    (hpw : (namesOf cs).Pairwise fun u v => jsToLower u ≠ jsToLower v)
    (hne : ∀ u ∈ namesOf cs, u ≠ "")
    (hfree : isNicknameInUse cs n = false) :
    (namesOf (setUsername cs h n)).Pairwise fun u v => jsToLower u ≠ jsToLower v := by
  induction cs with
  | nil => simp [setUsername, namesOf]
  | cons hc rest ih =>
    obtain ⟨k, c⟩ := hc
    rw [List.map_cons, List.nodup_cons] at hnd
    obtain ⟨hfree', hhead⟩ := isNicknameInUse_false_head hfree
    by_cases hk : k = h
    · rw [setUsername_cons, if_pos hk,
        setUsername_of_not_mem rest h n (hk ▸ hnd.1),
        namesOf_cons_some k rest (show Client.username _ = some n from rfl)]
      refine List.Pairwise.cons ?_ (pairwise_namesOf_tail hpw)
      intro v hv
      have hvne : v ≠ "" := hne v (mem_namesOf_tail hv)
      intro heq
      have : isNicknameInUse rest n = true := by
        rw [isNicknameInUse_iff]
        exact ⟨v, hv, hvne, heq.symm⟩
      rw [this] at hfree'
      cases hfree'
    · rw [setUsername_cons, if_neg hk]
      have ihres := ih hnd.2 (pairwise_namesOf_tail hpw)
        (fun u hu => hne u (mem_namesOf_tail hu)) hfree'
      cases hu : c.username with
      | none => rw [namesOf_cons_none k _ hu]; exact ihres
      | some u =>
        rw [namesOf_cons_some k _ hu]
        refine List.Pairwise.cons ?_ ihres
        intro v hv
        rcases mem_namesOf_setUsername hv with hvn | hvrest
        · subst hvn
          exact hhead u hu (hne u (by rw [namesOf_cons_some k _ hu]; exact List.mem_cons_self u _))
        · rw [namesOf_cons_some k _ hu] at hpw
          exact (List.pairwise_cons.mp hpw).1 v hvrest

theorem handleSetNickname_state (cs : Registry) (c : Client) (h : Handle)
    (nf : Option String) :
    (handleSetNickname cs c h nf).state = cs ∨
      ∃ nn, 2 ≤ nn.length ∧ nn.length ≤ 15 ∧ isNicknameInUse cs nn = false ∧
        (handleSetNickname cs c h nf).state = setUsername cs h nn := by
  simp only [handleSetNickname]
  split
  · exact Or.inl rfl
  next hcond =>
    split
    next htaken => exact Or.inl rfl
    next htaken =>
      right
      push_neg at hcond
      refine ⟨_, hcond.2.1, hcond.2.2, ?_, rfl⟩
      exact Bool.not_eq_true _ ▸ htaken

theorem handleChat_state (cs : Registry) (c : Client) (h : Handle) (mf : JsonStr) :
    (handleChat cs c h mf).state = cs := by
  unfold handleChat
  cases hu : c.username <;> cases mf <;> simp only [hu] <;>
    first
    | rfl
    | (split_ifs <;> rfl)

theorem handleTyping_state (cs : Registry) (c : Client) (h : Handle)
    (mk : String → Payload) : (handleTyping cs c h mk).state = cs := by
  unfold handleTyping
  cases hu : c.username <;> simp only [hu] <;>
    first
    | rfl
    | (split_ifs <;> rfl)

theorem handleClose_state (cs : Registry) (h : Handle) :
    (handleClose cs h).state = cs.filter fun hc => hc.1 != h := by
  simp only [handleClose]
  cases hlc : lookupClient cs h with
  | none => rfl
  | some c =>
    cases hu : c.username with
    | none => simp [hu]
    | some u => by_cases hu' : u = "" <;> simp [hu, hu']

theorem invariant_init : Invariant initialState := by
  refine ⟨?_, ?_, ?_, ?_, ?_⟩ <;> simp [initialState, namesOf]

theorem invariant_of_same_clients {cs : Registry} {k : Nat} (s : ServerState)
    (hinv : Invariant s) (hcs : cs = s.clients) (hk : k = s.nextId) :
    Invariant ⟨cs, k⟩ := by
  subst hcs hk
  exact hinv

theorem invariant_setUsername (s : ServerState) (h : Handle) (nn : String)
    (hinv : Invariant s) (h2 : 2 ≤ nn.length) (h15 : nn.length ≤ 15)
    (hfree : isNicknameInUse s.clients nn = false) :
    Invariant ⟨setUsername s.clients h nn, s.nextId⟩ := by
  obtain ⟨hnd, hpw, hlen, hop, hid⟩ := hinv
  refine ⟨?_, ?_, ?_, ?_, ?_⟩
  · rw [setUsername_map_fst]
    exact hnd
  · exact pairwise_setUsername _ h nn hnd hpw
      (fun u hu => ne_empty_of_two_le (hlen u hu).1) hfree
  · intro u hu
    rcases mem_namesOf_setUsername hu with he | hmem
    · subst he
      exact ⟨h2, h15⟩
    · exact hlen u hmem
  · intro hc hmem
    obtain ⟨c₀, hmem₀, _, hopEq⟩ := mem_setUsername hmem
    rw [hopEq]
    exact hop (hc.1, c₀) hmem₀
  · intro hc hmem
    obtain ⟨c₀, hmem₀, hidEq, _⟩ := mem_setUsername hmem
    rw [hidEq]
    exact hid (hc.1, c₀) hmem₀

theorem invariant_message (s : ServerState) (h : Handle) (m : InMsg)
    (hinv : Invariant s) : Invariant (step s (.message h m)).1 := by
  show Invariant ⟨(handleMessage s.clients h m).state, s.nextId⟩
  cases hlc : lookupClient s.clients h with
  | none =>
    refine invariant_of_same_clients s hinv ?_ rfl
    simp [handleMessage, hlc]
  | some c =>
    cases m with
    | setNickname nf =>
      have hdis : (handleMessage s.clients h (.setNickname nf)).state =
          (handleSetNickname s.clients c h nf).state := by
        simp [handleMessage, hlc]
      rcases handleSetNickname_state s.clients c h nf with hst | ⟨nn, h2, h15, hfree, hst⟩
      · exact invariant_of_same_clients s hinv (hdis.trans hst) rfl
      · rw [hdis, hst]
        exact invariant_setUsername s h nn hinv h2 h15 hfree
    | chat mf =>
      refine invariant_of_same_clients s hinv ?_ rfl
      simp only [handleMessage, hlc]
      exact handleChat_state s.clients c h mf
    | typingStart =>
      refine invariant_of_same_clients s hinv ?_ rfl
      simp only [handleMessage, hlc]
      exact handleTyping_state s.clients c h Payload.typingStart
    | typingStop =>
      refine invariant_of_same_clients s hinv ?_ rfl
      simp only [handleMessage, hlc]
      exact handleTyping_state s.clients c h Payload.typingStop
    | unknown =>
      refine invariant_of_same_clients s hinv ?_ rfl
      simp [handleMessage, hlc]

theorem invariant_close (s : ServerState) (h : Handle) (hinv : Invariant s) :
    Invariant (step s (.close h)).1 := by
  obtain ⟨hnd, hpw, hlen, hop, hid⟩ := hinv
  show Invariant ⟨(handleClose s.clients h).state, s.nextId⟩
  rw [handleClose_state]
  have hsub : (s.clients.filter fun hc => hc.1 != h).Sublist s.clients :=
    List.filter_sublist s.clients
  refine ⟨?_, ?_, ?_, ?_, ?_⟩
  · exact (hsub.map Prod.fst).nodup hnd
  · have hsubn : (namesOf (s.clients.filter fun hc => hc.1 != h)).Sublist
        (namesOf s.clients) := by
      unfold namesOf
      exact List.Sublist.filterMap _ hsub
    exact List.Pairwise.sublist hsubn hpw
  · intro u hu
    rw [mem_namesOf] at hu
    obtain ⟨hc, hmem, husr⟩ := hu
    refine hlen u ?_
    rw [mem_namesOf]
    exact ⟨hc, hsub.subset hmem, husr⟩
  · intro hc hmem
    exact hop hc (hsub.subset hmem)
  · intro hc hmem
    exact hid hc (hsub.subset hmem)

theorem invariant_connect (s : ServerState) (h : Handle) (hinv : Invariant s)
    (hfresh : lookupClient s.clients h = none) : Invariant (step s (.connect h)).1 := by
  obtain ⟨hnd, hpw, hlen, hop, hid⟩ := hinv
  rw [lookupClient_eq_none] at hfresh
  show Invariant ⟨s.clients ++ [(h, ⟨s.nextId, none, true⟩)], s.nextId + 1⟩
  have hnames : namesOf (s.clients ++ [(h, ⟨s.nextId, none, true⟩)]) =
      namesOf s.clients := by
    simp [namesOf, List.filterMap_append]
  refine ⟨?_, ?_, ?_, ?_, ?_⟩
  · rw [List.map_append, List.nodup_append]
    refine ⟨hnd, List.nodup_singleton h, ?_⟩
    intro a ha hb
    simp only [List.map_cons, List.map_nil, List.mem_singleton] at hb
    subst hb
    exact hfresh ha
  · rw [hnames]
    exact hpw
  · rw [hnames]
    exact hlen
  · intro hc hmem
    rcases List.mem_append.mp hmem with hmem | hmem
    · exact hop hc hmem
    · simp only [List.mem_singleton] at hmem
      subst hmem
      rfl
  · intro hc hmem
    rcases List.mem_append.mp hmem with hmem | hmem
    · exact Nat.lt_succ_of_lt (hid hc hmem)
    · simp only [List.mem_singleton] at hmem
      subst hmem
      exact Nat.lt_succ_self _

theorem reachable_invariant {s : ServerState} (hr : Reachable s) : Invariant s := by
  induction hr with
  | init => exact invariant_init
  | connect s h _ hfresh ih => exact invariant_connect s h ih hfresh
  | message s h m _ ih => exact invariant_message s h m ih
  | close s h _ ih => exact invariant_close s h ih

theorem demoState_reachable : Reachable demoState :=
  Reachable.message _ 1 _
    (Reachable.connect _ 1
      (Reachable.message _ 0 _
        (Reachable.connect _ 0 Reachable.init (by decide)))
      (by decide))

theorem validateNickname_ok {cs : Registry} {nick t : String}
    (hv : validateNickname cs (some nick) = .ok t) :
    t = jsTrim nick ∧
      ¬(jsTrim nick = "" ∨ (jsTrim nick).length < 2 ∨ (jsTrim nick).length > 15) ∧
      isNicknameInUse cs (jsTrim nick) = false := by
  simp only [validateNickname] at hv
  split at hv
  · cases hv
  next h1 =>
    split at hv
    next h2 => cases hv
    next h2 =>
      injection hv with hv
      exact ⟨hv.symm, h1, Bool.not_eq_true _ ▸ h2⟩

theorem validateNickname_error_cases {cs : Registry} {nick : String}
    {e : NicknameError} (hv : validateNickname cs (some nick) = .error e) :
    (e = .invalidLength ∧
        (jsTrim nick = "" ∨ (jsTrim nick).length < 2 ∨ (jsTrim nick).length > 15)) ∨
      (e = .nameTaken ∧
        ¬(jsTrim nick = "" ∨ (jsTrim nick).length < 2 ∨ (jsTrim nick).length > 15) ∧
        isNicknameInUse cs (jsTrim nick) = true) := by
  simp only [validateNickname] at hv
  split at hv
  next h1 =>
    injection hv with hv
    exact Or.inl ⟨hv.symm, h1⟩
  next h1 =>
    split at hv
    next h2 =>
      injection hv with hv
      exact Or.inr ⟨hv.symm, h1, h2⟩
    next h2 => cases hv

theorem lookupClient_cons {k : Handle} {c : Client} {rest : Registry} {h : Handle} :
    lookupClient ((k, c) :: rest) h = if k = h then some c else lookupClient rest h := by
  by_cases hk : k = h
  · rw [if_pos hk]
    unfold lookupClient
    rw [List.find?_cons_of_pos _ (by simpa [beq_iff_eq] using hk)]
    rfl
  · rw [if_neg hk]
    unfold lookupClient
    rw [List.find?_cons_of_neg _ (by simpa [beq_iff_eq] using hk)]

theorem lookupClient_setUsername_self {cs : Registry} {h : Handle} {c : Client}
    (hc : lookupClient cs h = some c) (n : String) :
    lookupClient (setUsername cs h n) h = some { c with username := some n } := by
  induction cs with
  | nil => cases hc
  | cons hc₀ rest ih =>
    obtain ⟨k, c₀⟩ := hc₀
    rw [lookupClient_cons] at hc
    rw [setUsername_cons]
    by_cases hk : k = h
    · rw [if_pos hk] at hc ⊢
      injection hc with hc
      subst hc
      rw [lookupClient_cons, if_pos hk]
    · rw [if_neg hk] at hc ⊢
      rw [lookupClient_cons, if_neg hk]
      exact ih hc

theorem contains_eq_true_of_mem {l : List Handle} {a : Handle} (hmem : a ∈ l) :
    l.contains a = true :=
  List.elem_iff.mpr hmem

theorem contains_openHandlesExcept_self (cs : Registry) (h : Handle) :
    (openHandlesExcept cs (some h)).contains h = false := by
  by_contra hcon
  rw [Bool.not_eq_false] at hcon
  have hmem : h ∈ openHandlesExcept cs (some h) := List.elem_iff.mp hcon
  obtain ⟨c, _, _, hx⟩ := mem_openHandlesExcept.mp hmem
  exact hx rfl

theorem joinOrRenameText_eq {o : Option String} (ho : o ≠ some "") (n : String) :
    joinOrRenameText o n = o.elim (joinText n) fun old => renameText old n := by
  cases o with
  | none => rfl
  | some old =>
    have hold : old ≠ "" := fun he => ho (by rw [he])
    simp only [joinOrRenameText, Option.elim]
    rw [if_neg hold]

/-- C1: nickname validation is a total, deterministic function of the requested
name and the registered display names: it fails with InvalidLength exactly when
the trimmed length is outside [2, 15]; against a registry whose display names
have valid lengths it fails with NameTaken exactly when some registered display
name matches the trimmed name case-insensitively; every success returns the
trimmed form, and it succeeds whenever the length is in range and no
case-insensitive match exists. -/
theorem validate_spec (cs : Registry) (s : String)
    (hreg : ∀ u ∈ namesOf cs, 2 ≤ u.length ∧ u.length ≤ 15) :
    (validateNickname cs (some s) = .error .invalidLength ↔
      ((jsTrim s).length < 2 ∨ (jsTrim s).length > 15)) ∧
    (validateNickname cs (some s) = .error .nameTaken ↔
      ∃ u ∈ namesOf cs, jsToLower u = jsToLower (jsTrim s)) ∧
    (∀ t, validateNickname cs (some s) = .ok t → t = jsTrim s) ∧
    ((2 ≤ (jsTrim s).length ∧ (jsTrim s).length ≤ 15 ∧
        ¬∃ u ∈ namesOf cs, jsToLower u = jsToLower (jsTrim s)) →
      validateNickname cs (some s) = .ok (jsTrim s)) := by
  refine ⟨⟨?_, ?_⟩, ⟨?_, ?_⟩, ?_, ?_⟩
  · intro hv
    rcases validateNickname_error_cases hv with ⟨_, hcond⟩ | ⟨he, _⟩
    · rcases hcond with he | hcond
      · left
        rw [he]
        decide
      · exact hcond
    · cases he
  · intro hcond
    simp only [validateNickname]
    rw [if_pos (Or.inr hcond)]
  · intro hv
    rcases validateNickname_error_cases hv with ⟨he, _⟩ | ⟨_, _, hInUse⟩
    · cases he
    · obtain ⟨u, hmem, _, heq⟩ := (isNicknameInUse_iff cs (jsTrim s)).mp hInUse
      exact ⟨u, hmem, heq⟩
  · rintro ⟨u, hmem, heq⟩
    obtain ⟨h2, h15⟩ := hreg u hmem
    have hulen : u.length = (jsTrim s).length := by
      have := congrArg String.length heq
      rwa [jsToLower_length, jsToLower_length] at this
    have hcond : ¬(jsTrim s = "" ∨ (jsTrim s).length < 2 ∨ (jsTrim s).length > 15) := by
      rintro (he | hlt | hgt)
      · rw [he] at hulen
        have : u.length = 0 := hulen
        omega
      · omega
      · omega
    have hInUse : isNicknameInUse cs (jsTrim s) = true :=
      (isNicknameInUse_iff cs (jsTrim s)).mpr ⟨u, hmem, ne_empty_of_two_le h2, heq⟩
    simp only [validateNickname]
    rw [if_neg hcond, if_pos hInUse]
  · intro t hv
    exact (validateNickname_ok hv).1
  · rintro ⟨h2, h15, hno⟩
    have hcond : ¬(jsTrim s = "" ∨ (jsTrim s).length < 2 ∨ (jsTrim s).length > 15) := by
      rintro (he | hlt | hgt)
      · rw [he] at h2
        exact (by decide : ¬ 2 ≤ ("" : String).length) h2
      · omega
      · omega
    have hF : isNicknameInUse cs (jsTrim s) = false := by
      cases hb : isNicknameInUse cs (jsTrim s) with
      | false => rfl
      | true =>
        obtain ⟨u, hm, _, heq⟩ := (isNicknameInUse_iff cs (jsTrim s)).mp hb
        exact absurd ⟨u, hm, heq⟩ hno
    simp only [validateNickname]
    rw [if_neg hcond, if_neg (by simp [hF])]

theorem validate_spec_witness :
    validateNickname ([] : Registry) (some " Bob ") = Except.ok "Bob" ∧
    validateNickname demoClients (some "bob") = Except.error NicknameError.nameTaken :=
  ⟨(validate_spec [] " Bob " (by decide)).2.2.2 (by decide),
   ((validate_spec demoClients "bob" (by decide)).2.1).mpr (by decide)⟩

/-- C2: in every reachable state the display names present are exactly those of
the currently-open, currently-named connections, no two of them are equal under
case-insensitive comparison, and the registered handles are distinct; the proof
goes by induction over the event step relation, so every operation preserves
the invariant. -/
theorem registry_uniqueness (s : ServerState) (hr : Reachable s) :
    namesOf (s.clients.filter fun hc => hc.2.isOpen) = namesOf s.clients ∧
    (namesOf s.clients).Pairwise (fun u v => jsToLower u ≠ jsToLower v) ∧
    (s.clients.map Prod.fst).Nodup := by
  obtain ⟨hnd, hpw, _, hop, _⟩ := reachable_invariant hr
  refine ⟨?_, hpw, hnd⟩
  rw [List.filter_eq_self.mpr fun hc hmem => hop hc hmem]

theorem registry_uniqueness_witness :
    namesOf (demoState.clients.filter fun hc => hc.2.isOpen) =
        namesOf demoState.clients ∧
      (namesOf demoState.clients).Pairwise (fun u v => jsToLower u ≠ jsToLower v) ∧
      (demoState.clients.map Prod.fst).Nodup :=
  registry_uniqueness demoState demoState_reachable

/-- C4: a SET_NICKNAME request that fails validation produces exactly one
system message, describing that specific failure, sent to the requester only,
and the registry is left unchanged. -/
theorem setNickname_failure (cs : Registry) (h : Handle) (c : Client)
    (nick : String) (e : NicknameError) (hc : lookupClient cs h = some c)
    (hv : validateNickname cs (some nick) = .error e) :
    handleMessage cs h (.setNickname (some nick)) =
      ⟨cs, [⟨h, .system none (errText e (jsTrim nick)) none⟩]⟩ := by
  simp only [handleMessage, hc]
  simp only [handleSetNickname]
  simp only [validateNickname] at hv
  split at hv
  next h1 =>
    injection hv with hv
    rw [if_pos h1, ← hv]
    rfl
  next h1 =>
    split at hv
    next h2 =>
      injection hv with hv
      rw [if_neg h1, if_pos h2, ← hv]
      rfl
    next h2 => cases hv

theorem setNickname_failure_witness :
    handleMessage demoClients 0 (.setNickname (some "x")) =
      ⟨demoClients, [⟨0, .system none (errText .invalidLength (jsTrim "x")) none⟩]⟩ :=
  setNickname_failure demoClients 0 ⟨0, some "Bob", true⟩ "x" .invalidLength
    (by decide) rfl

/-- C10: a session whose display name is N has any SET_NICKNAME request whose
trimmed nickname equals N up to case rejected with NameTaken, because the
uniqueness scan ranges over all sessions including the requester's own, and the
registry is left unchanged. -/
theorem self_rename_rejected (cs : Registry) (h : Handle) (c : Client)
    (N n : String) (hc : lookupClient cs h = some c) (hu : c.username = some N)
    (h2 : 2 ≤ N.length) (h15 : N.length ≤ 15)
    (hcase : jsToLower (jsTrim n) = jsToLower N) :
    handleMessage cs h (.setNickname (some n)) =
      ⟨cs, [⟨h, .system none (takenErrText (jsTrim n)) none⟩]⟩ := by
  have hlen : (jsTrim n).length = N.length := by
    have := congrArg String.length hcase
    rwa [jsToLower_length, jsToLower_length] at this
  have hInUse : isNicknameInUse cs (jsTrim n) = true := by
    rw [isNicknameInUse_iff]
    refine ⟨N, ?_, ne_empty_of_two_le h2, hcase.symm⟩
    rw [mem_namesOf]
    exact ⟨(h, c), lookupClient_mem hc, hu⟩
  have hcond : ¬(jsTrim n = "" ∨ (jsTrim n).length < 2 ∨ (jsTrim n).length > 15) := by
    rintro (he | hlt | hgt)
    · rw [he] at hlen
      have : (0 : Nat) = N.length := hlen
      omega
    · omega
    · omega
  simp only [handleMessage, hc]
  simp only [handleSetNickname]
  rw [if_neg hcond, if_pos hInUse]

theorem self_rename_rejected_witness :
    handleMessage demoClients 0 (.setNickname (some "BOB")) =
      ⟨demoClients, [⟨0, .system none (takenErrText (jsTrim "BOB")) none⟩]⟩ :=
  self_rename_rejected demoClients 0 ⟨0, some "Bob", true⟩ "Bob" "BOB"
    (by decide) rfl (by decide) (by decide) (by decide)

/-- C3: a SET_NICKNAME request that passes validation writes the trimmed name
into the requester's session and sends, in this order: a confirmation carrying
the accepted name to the requester only, the join-or-rename system message to
every open connection except the requester (join wording for a previously
anonymous session, rename wording for a named one), then the refreshed user
list to every open connection, the requester included. -/
theorem setNickname_success_flow (cs : Registry) (h : Handle) (c : Client)
    (nick t : String) (hc : lookupClient cs h = some c) (hop : c.isOpen = true)
    (hold : c.username ≠ some "")
    (hv : validateNickname cs (some nick) = .ok t) :
    handleMessage cs h (.setNickname (some nick)) =
      ⟨setUsername cs h t,
        ⟨h, .system (some "系统") (welcomeText t) (some t)⟩ ::
          (((openHandlesExcept (setUsername cs h t) (some h)).map fun k =>
              (⟨k, Payload.system none
                  (c.username.elim (joinText t) fun old => renameText old t)
                  none⟩ : Delivery)) ++
            ((openHandlesExcept (setUsername cs h t) none).map fun k =>
              (⟨k, Payload.userListUpdate
                  (userList (setUsername cs h t))⟩ : Delivery)))⟩ ∧
    t = jsTrim nick ∧
    lookupClient (setUsername cs h t) h = some { c with username := some t } ∧
    (openHandlesExcept (setUsername cs h t) none).contains h = true ∧
    (openHandlesExcept (setUsername cs h t) (some h)).contains h = false := by
  obtain ⟨ht, hcond, hfree⟩ := validateNickname_ok hv
  subst ht
  refine ⟨?_, rfl, lookupClient_setUsername_self hc _, ?_,
    contains_openHandlesExcept_self _ h⟩
  · simp only [handleMessage, hc]
    simp only [handleSetNickname]
    rw [if_neg hcond, if_neg (by simp [hfree])]
    rw [joinOrRenameText_eq hold]
    unfold broadcastUserList
    rw [broadcast_eq_map, broadcast_eq_map]
  · apply contains_eq_true_of_mem
    rw [mem_openHandlesExcept]
    refine ⟨{ c with username := some (jsTrim nick) }, ?_, hop, by simp⟩
    exact lookupClient_mem (lookupClient_setUsername_self hc _)

theorem setNickname_success_flow_witness :
    handleMessage [(0, ⟨7, none, true⟩)] 0 (.setNickname (some " Bob ")) =
      ⟨setUsername [(0, ⟨7, none, true⟩)] 0 "Bob",
        ⟨0, .system (some "系统") (welcomeText "Bob") (some "Bob")⟩ ::
          (((openHandlesExcept (setUsername [(0, ⟨7, none, true⟩)] 0 "Bob")
                (some 0)).map fun k =>
              (⟨k, Payload.system none (joinText "Bob") none⟩ : Delivery)) ++
            ((openHandlesExcept (setUsername [(0, ⟨7, none, true⟩)] 0 "Bob")
                none).map fun k =>
              (⟨k, Payload.userListUpdate
                  (userList (setUsername [(0, ⟨7, none, true⟩)] 0 "Bob"))⟩ :
                Delivery)))⟩ ∧
    "Bob" = jsTrim " Bob " ∧
    lookupClient (setUsername [(0, ⟨7, none, true⟩)] 0 "Bob") 0 =
      some ⟨7, some "Bob", true⟩ ∧
    (openHandlesExcept (setUsername [(0, ⟨7, none, true⟩)] 0 "Bob")
        none).contains 0 = true ∧
    (openHandlesExcept (setUsername [(0, ⟨7, none, true⟩)] 0 "Bob")
        (some 0)).contains 0 = false :=
  setNickname_success_flow [(0, ⟨7, none, true⟩)] 0 ⟨7, none, true⟩ " Bob " "Bob"
    (by decide) rfl (by decide) rfl

/-- C5: a CHAT message from an anonymous session, or one whose body is absent,
not a string, or empty after trimming, sends nothing and changes nothing;
otherwise the chat event carrying the sender's name and the trimmed body goes
to every other open connection, named or anonymous, and never back to the
sender. -/
theorem chat_flow (cs : Registry) (h : Handle) (c : Client) (mf : JsonStr)
    (hc : lookupClient cs h = some c) (hne : c.username ≠ some "") :
    handleMessage cs h (.chat mf) = ⟨cs, chatSendsSpec cs h c mf⟩ ∧
    ((chatSendsSpec cs h c mf).all fun d => d.dest != h) = true := by
  constructor
  · simp only [handleMessage, hc]
    cases hu : c.username with
    | none => cases mf <;> simp [handleChat, chatSendsSpec, hu]
    | some u =>
      have hu' : u ≠ "" := fun he => hne (by rw [hu, he])
      cases mf with
      | str m =>
        by_cases hm : jsTrim m = ""
        · simp [handleChat, chatSendsSpec, hu, hu', hm]
        · simp [handleChat, chatSendsSpec, hu, hu', hm, broadcast_eq_map]
      | notStr => simp [handleChat, chatSendsSpec, hu]
      | absent => simp [handleChat, chatSendsSpec, hu]
  · rw [List.all_eq_true]
    intro d hd
    cases hu : c.username with
    | none => cases mf <;> simp [chatSendsSpec, hu] at hd
    | some u =>
      cases mf with
      | str m =>
        simp only [chatSendsSpec, hu] at hd
        by_cases hm : jsTrim m = ""
        · rw [if_pos hm] at hd
          simp at hd
        · rw [if_neg hm] at hd
          obtain ⟨k, hk, hdk⟩ := List.mem_map.mp hd
          obtain ⟨c', _, _, hx⟩ := mem_openHandlesExcept.mp hk
          rw [← hdk]
          exact bne_iff_ne.mpr fun he => hx (by rw [show k = h from he])
      | notStr => simp [chatSendsSpec, hu] at hd
      | absent => simp [chatSendsSpec, hu] at hd

theorem chat_flow_witness :
    handleMessage demoClients2 0 (.chat (.str " hi ")) =
        ⟨demoClients2, chatSendsSpec demoClients2 0 ⟨0, some "Alice", true⟩ (.str " hi ")⟩ ∧
      ((chatSendsSpec demoClients2 0 ⟨0, some "Alice", true⟩ (.str " hi ")).all
          fun d => d.dest != 0) = true :=
  chat_flow demoClients2 0 ⟨0, some "Alice", true⟩ (.str " hi ") (by decide) (by decide)

/-- C6: on transport close the session's registry entry is removed; if the
removed session had a display name, the departure system message and the
refreshed user list are broadcast to every remaining open connection; if it
never set a nickname, nothing is sent to anyone. -/
theorem close_flow (s : ServerState) (hr : Reachable s) (h : Handle) :
    handleClose s.clients h =
      ⟨s.clients.filter fun hc => hc.1 != h, closeSendsSpec s.clients h⟩ := by
  obtain ⟨_, _, hlen, _, _⟩ := reachable_invariant hr
  simp only [handleClose, closeSendsSpec]
  cases hlc : lookupClient s.clients h with
  | none => rfl
  | some c =>
    cases hu : c.username with
    | none => simp [hu]
    | some u =>
      have humem : u ∈ namesOf s.clients := by
        rw [mem_namesOf]
        exact ⟨(h, c), lookupClient_mem hlc, hu⟩
      have hu' : u ≠ "" := ne_empty_of_two_le (hlen u humem).1
      simp only [hu]
      rw [if_neg hu']
      unfold broadcastUserList
      rw [broadcast_eq_map, broadcast_eq_map]

theorem close_flow_witness :
    handleClose demoState.clients 1 =
      ⟨demoState.clients.filter fun hc => hc.1 != 1,
        closeSendsSpec demoState.clients 1⟩ :=
  close_flow demoState demoState_reachable 1

/-- C7: broadcast serializes one payload and attempts delivery exactly to the
open, non-excluded connections, in registry order; pairing every attempted
delivery with its own transport send outcome changes neither which recipients
are attempted nor their order, so one recipient's failure cannot abort the
rest, and the dispatcher itself returns normally. -/
theorem broadcast_fire_and_forget (cs : Registry) (p : Payload) (x : Option Handle)
    (sendOk sendOk' : Handle → Bool) :
    broadcast cs p x = ((openHandlesExcept cs x).map fun k => ⟨k, p⟩) ∧
    (deliverAll (broadcast cs p x) sendOk).map Prod.fst = broadcast cs p x ∧
    ((deliverAll (broadcast cs p x) sendOk).map fun db => db.1.dest) =
      ((deliverAll (broadcast cs p x) sendOk').map fun db => db.1.dest) := by
  refine ⟨broadcast_eq_map cs p x, ?_, ?_⟩
  · unfold deliverAll
    rw [List.map_map]
    have hid : (Prod.fst ∘ fun d : Delivery => (d, sendOk d.dest)) = id := by
      funext d
      rfl
    rw [hid, List.map_id]
  · simp [deliverAll, Function.comp]

/-- C8 counterexample: at connect time the handler sends nothing at all, so in
particular no welcome message is unicast to the new connection. -/
theorem connect_no_welcome_cex : (step initialState (Event.connect 0)).2 = [] := rfl

/-- C8 amended: on every new connection the handler registers the connection
with a fresh session id and no display name, and sends nothing at connect
time: no unicast to the new connection and no broadcast to the others (the
welcome is only unicast later, upon nickname confirmation). -/
theorem connect_behavior (s : ServerState) (h : Handle) (hinv : Invariant s) :
    step s (.connect h) =
      (⟨s.clients ++ [(h, ⟨s.nextId, none, true⟩)], s.nextId + 1⟩, []) ∧
    (s.clients.all fun hc => hc.2.id != s.nextId) = true := by
  refine ⟨rfl, ?_⟩
  rw [List.all_eq_true]
  intro hc hmem
  exact bne_iff_ne.mpr (Nat.ne_of_lt (hinv.2.2.2.2 hc hmem))

theorem connect_behavior_witness :
    step demoState (.connect 5) =
      (⟨demoState.clients ++ [(5, ⟨demoState.nextId, none, true⟩)],
          demoState.nextId + 1⟩, []) ∧
    (demoState.clients.all fun hc => hc.2.id != demoState.nextId) = true :=
  connect_behavior demoState 5 (reachable_invariant demoState_reachable)

/-- C9: in every reachable state the broadcast user list is exactly the
currently-set display names, sorted in the lexicographic string order used by
the JavaScript default sort, without duplicates, and every USER_LIST_UPDATE
delivery carries exactly that list. -/
theorem userlist_spec (s : ServerState) (hr : Reachable s) :
    (userList s.clients).Perm (namesOf s.clients) ∧
    List.Sorted strLe (userList s.clients) ∧
    (userList s.clients).Nodup ∧
    ((broadcastUserList s.clients).all fun d =>
        d.payload == Payload.userListUpdate (userList s.clients)) = true := by
  obtain ⟨_, hpw, hlen, _, _⟩ := reachable_invariant hr
  have hfil : (namesOf s.clients).filter (fun u => u != "") = namesOf s.clients :=
    List.filter_eq_self.mpr fun u hu => bne_iff_ne.mpr (ne_empty_of_two_le (hlen u hu).1)
  have hperm : (userList s.clients).Perm (namesOf s.clients) := by
    unfold userList
    rw [hfil]
    exact List.perm_insertionSort strLe _
  refine ⟨hperm,
    @List.sorted_insertionSort String strLe _ strLe_isTotal strLe_isTrans _, ?_, ?_⟩
  · have hnd : (namesOf s.clients).Nodup :=
      hpw.imp fun hab heq => hab (by rw [heq])
    exact hperm.symm.nodup hnd
  · rw [List.all_eq_true]
    intro d hd
    unfold broadcastUserList at hd
    rw [broadcast_eq_map] at hd
    obtain ⟨k, _, hdk⟩ := List.mem_map.mp hd
    rw [← hdk]
    exact beq_iff_eq.mpr rfl

theorem userlist_spec_witness :
    (userList demoState.clients).Perm (namesOf demoState.clients) ∧
    List.Sorted strLe (userList demoState.clients) ∧
    (userList demoState.clients).Nodup ∧
    ((broadcastUserList demoState.clients).all fun d =>
        d.payload == Payload.userListUpdate (userList demoState.clients)) = true :=
  userlist_spec demoState demoState_reachable

end ChatRoom
